import Mathlib

set_option maxRecDepth 4000

/-
Verification of the dependency-graph generator `depends.py`.

The development shallowly embeds the core of the program:
  * the graph data model (`Node`, `Graph`, `get_node`, `add_child`),
  * include-path resolution (`resolve_path`),
  * the include-directive matcher (regex `# *include *([<"])([^>"]*)([>"])`
    applied with `re.match`, i.e. anchored at the start of the line),
  * the recursive scanner `cpp_scan_file` (fuel-indexed; the fuel bounds the
    call-stack depth and plays no other role),
  * the renderer `print_tree` (fuel-indexed in the same way) and the
    top-level / leaf listing modes.

Python objects are identified by their path key: `graph.get_node` returns the
same object for the same string, so a `Node` reference is modelled as its path
string and object mutation as an update of the graph's association list.
The file system is modelled as a finite association list from existing file
paths to their list of lines.
-/

namespace Depends

/-- Source constant `MAX_DEPTH = 1000`. -/
def MAX_DEPTH : Nat := 1000

/-- Source constant `INDENT = 2`. -/
def INDENT : Nat := 2

/-- One vertex of the dependency graph; mirrors class `Node`.
`children` holds the path keys of the nodes that include this node
(the source's inverted edge direction). -/
structure Node where
  file : String
  children : List String
  has_parent : Bool
  visited : Bool
  missing : Bool
deriving DecidableEq

/-- The graph: Python dict `nodes` keyed by path, in insertion order. -/
structure Graph where
  nodes : List (String × Node)
deriving DecidableEq

/-- Ambient configuration: the file system (existing files with their lines),
`inc_search_paths` and `SYS_INC_PATHS`. -/
structure Env where
  fs : List (String × List String)
  inc_search_paths : List String
  sys_inc_paths : List String

/-- State threaded through `cpp_scan_file`: the global graph, the diagnostics
printed so far, and a counter of lines read (one per line of every file whose
content is read). -/
structure ScanState where
  graph : Graph
  errors : List String
  linesRead : Nat
deriving DecidableEq

/-- State threaded through `print_tree`: the graph (whose `visited` flags the
render mutates), the globals `depth` and `max_depth_reached`, and the lines
printed so far. -/
structure RenderState where
  graph : Graph
  depth : Nat
  max_depth_reached : Nat
  output : List String
deriving DecidableEq

/-- First-match association lookup on the node list. -/
def findNodeL : List (String × Node) → String → Option Node
  | [], _ => none
  | kn :: rest, key => if kn.1 == key then some kn.2 else findNodeL rest key

/-- Look a node up by path (Python `file in self.nodes` / `self.nodes[file]`). -/
def findNode (g : Graph) (key : String) : Option Node :=
  findNodeL g.nodes key

/-- Mutate the node stored under `key` (object mutation through a shared
reference in Python). Keys are preserved. -/
def updateNode (g : Graph) (key : String) (f : Node → Node) : Graph :=
  { nodes := g.nodes.map fun kn => if kn.1 == key then (kn.1, f kn.2) else kn }

/-- `Graph.get_node`: create on first use, return the existing node thereafter. -/
def getNode (g : Graph) (file : String) : Graph × Node :=
  match findNode g file with
  | some n => (g, n)
  | none =>
    ({ nodes := g.nodes ++ [(file, ⟨file, [], false, false, false⟩)] },
      ⟨file, [], false, false, false⟩)

/-- `Node.add_child`: parent node `parentKey` gains `childKey` as a child
unless already present, in which case nothing happens; on an actual append the
child's `has_parent` is set. -/
def addChild (g : Graph) (parentKey childKey : String) : Graph :=
  match findNode g parentKey with
  | none => g
  | some p =>
    if p.children.contains childKey then g
    else
      updateNode (updateNode g parentKey fun n => { n with children := n.children ++ [childKey] })
        childKey fun n => { n with has_parent := true }

/-- `this_node.visited = True`. -/
def setVisited (g : Graph) (key : String) : Graph :=
  updateNode g key fun n => { n with visited := true }

/-- `this_node.missing = True`. -/
def setMissing (g : Graph) (key : String) : Graph :=
  updateNode g key fun n => { n with missing := true }

/-- `Graph.clear_visisted` (graph part): reset every `visited` flag. The
accompanying reset of the global `depth` to 0 is reflected at the call sites. -/
def clearVisited (g : Graph) : Graph :=
  { nodes := g.nodes.map fun kn => (kn.1, { kn.2 with visited := false }) }

/-- `visited` of the node stored under `key` (`false` if absent, which is also
the initial value `get_node` would give it). -/
def visitedOf (g : Graph) (key : String) : Bool :=
  ((findNode g key).map Node.visited).getD false

/-- `missing` of the node stored under `key`. -/
def missingOf (g : Graph) (key : String) : Bool :=
  ((findNode g key).map Node.missing).getD false

/-- `has_parent` of the node stored under `key`. -/
def hasParentOf (g : Graph) (key : String) : Bool :=
  ((findNode g key).map Node.has_parent).getD false

/-- `children` of the node stored under `key`. -/
def childrenOf (g : Graph) (key : String) : List String :=
  ((findNode g key).map Node.children).getD []

/-- `Node.has_children`: `len(self.children) > 0`. -/
def hasChildren (n : Node) : Bool :=
  decide (0 < n.children.length)

/-- Well-formedness produced by scanning: every key listed in some `children`
list names a node whose `has_parent` flag is set (each edge was added by
`add_child`, which sets the flag). -/
def childParentInv (g : Graph) : Bool :=
  g.nodes.all fun kn => kn.2.children.all fun c => hasParentOf g c

/-- The key sequence of the graph (Python dict keys are unique). -/
def graphKeys (g : Graph) : List String :=
  g.nodes.map Prod.fst

/-- Python `str.isspace` characters relevant to `str.strip()`. -/
def pySpace (c : Char) : Bool :=
  c == ' ' || c == '\t' || c == '\n' || c == '\r' || c == '\x0b' || c == '\x0c'

/-- Python `line.strip()`. -/
def pyStrip (s : String) : String :=
  String.mk (((s.toList.dropWhile pySpace).reverse.dropWhile pySpace).reverse)

/-- The `"./"` / `".\\"` prefix removal in `Node.print_node` (`s = s[2:]`). -/
def stripDotSlash (s : String) : String :=
  match s.toList with
  | '.' :: '/' :: rest => String.mk rest
  | '.' :: '\\' :: rest => String.mk rest
  | _ => s

/-- Python `s.startswith(p)`. -/
def strStartsWith (s p : String) : Bool :=
  p.toList.isPrefixOf s.toList

/-- `os.path.join` (posix): absolute second component wins; otherwise join
with a single separator. -/
def joinPath (a b : String) : String :=
  match b.toList with
  | '/' :: _ => b
  | _ =>
    match a.toList.reverse with
    | [] => b
    | '/' :: _ => a ++ b
    | _ => a ++ "/" ++ b

/-- `os.path.split` (posix): split at the last separator; the head keeps no
trailing separators unless it is all separators. -/
def splitPath (p : String) : String × String :=
  let rev := p.toList.reverse
  let tail := (rev.takeWhile fun c => !(c == '/')).reverse
  let headAll := (rev.dropWhile fun c => !(c == '/')).reverse
  let hd :=
    if headAll.all fun c => c == '/' then headAll
    else (headAll.reverse.dropWhile fun c => c == '/').reverse
  (String.mk hd, String.mk tail)

/-- Finite file system lookup: `some lines` iff the path is an existing file. -/
def fsLookup : List (String × List String) → String → Option (List String)
  | [], _ => none
  | kv :: rest, p => if kv.1 == p then some kv.2 else fsLookup rest p

/-- `os.path.isfile`. -/
def isfile (env : Env) (p : String) : Bool :=
  (fsLookup env.fs p).isSome

/-- The `([<"])([^>"]*)([>"])` tail of the include pattern: `c` is the
character found after the optional spaces following `include`; the spelling is
the greedy run of characters other than `'>'` and `'"'`; the next character
(which is then necessarily `'>'` or `'"'`) closes the directive. -/
def matchAfterOpen (c : Char) (r3 : List Char) : Option (Char × List Char × Char) :=
  if c == '<' || c == '\"' then
    match r3.dropWhile fun d => !(d == '>') && !(d == '\"') with
    | d :: _ => some (c, r3.takeWhile fun d => !(d == '>') && !(d == '\"'), d)
    | [] => none
  else none

/-- The ` *([<"])…` part after the literal `include`. -/
def matchAfterInclude (r2 : List Char) : Option (Char × List Char × Char) :=
  match r2.dropWhile fun c => c == ' ' with
  | c :: r3 => matchAfterOpen c r3
  | [] => none

/-- The ` *include…` part after the leading `'#'`. -/
def matchAfterHash (rest : List Char) : Option (Char × List Char × Char) :=
  match rest.dropWhile fun c => c == ' ' with
  | 'i' :: 'n' :: 'c' :: 'l' :: 'u' :: 'd' :: 'e' :: r2 => matchAfterInclude r2
  | _ => none

/-- `CPP_INC_PATTERN = re.compile('# *include *([<"])([^>"]*)([>"])')` applied
with `re.match`, i.e. anchored at the start of the line: a `'#'` must be the
first character, then spaces, `include`, spaces, an opening delimiter, the
spelling (greedy run of characters other than `'>'` and `'"'`), and a closing
delimiter. Returns the three capture groups. -/
def cppIncMatch : List Char → Option (Char × List Char × Char)
  | '#' :: rest => matchAfterHash rest
  | _ => none

/-- `is_sys_header_path`: does any registered system include path prefix the
directory? -/
def is_sys_header_path (env : Env) (dir_path : String) : Bool :=
  env.sys_inc_paths.any fun p => strStartsWith dir_path p

/-- The `for search_path in inc_search_paths` loop of `resolve_path`. -/
def resolveLoop (env : Env) (inc_path : String) : List String → String
  | [] => inc_path
  | sp :: rest =>
    if isfile env (joinPath sp inc_path) then joinPath sp inc_path
    else resolveLoop env inc_path rest

/-- `resolve_path(dir_path, inc_path, relative)`. -/
def resolve_path (env : Env) (dir_path inc_path : String) (relative : Bool) : String :=
  if relative then
    if isfile env (joinPath dir_path inc_path) then joinPath dir_path inc_path
    else resolveLoop env inc_path env.inc_search_paths
  else resolveLoop env inc_path env.inc_search_paths

/-- `'ERROR: ' + s` as printed by `error(s)`. -/
def errorLine (s : String) : String :=
  "ERROR: " ++ s

/-- The body of the per-line loop of `cpp_scan_file`: match the include
pattern, reject mismatched delimiters with a diagnostic, resolve the spelling,
drop system headers. Result: (include recorded by this line, diagnostic
emitted by this line). -/
def scanLine (env : Env) (dir_path path : String) (lineNum : Nat) (line : String) :
    Option String × Option String :=
  match cppIncMatch line.toList with
  | none => (none, none)
  | some (first, body, last) =>
    if (first == '<' && last == '\"') || (first == '\"' && last == '>') then
      (none, some (errorLine (path ++ ": Invalid #include directive at line " ++
        toString lineNum ++ ": " ++ pyStrip line)))
    else
      let inc_path := resolve_path env dir_path (String.mk body) (first == '\"')
      if is_sys_header_path env (splitPath inc_path).1 then (none, none)
      else (some inc_path, none)

/-- The `for line in f` loop: line numbers count from `lineNum`; collects the
`includes` list and the diagnostics, in order. -/
def scanLines (env : Env) (dir_path path : String) : Nat → List String → List String × List String
  | _, [] => ([], [])
  | n, l :: ls =>
    let e := scanLine env dir_path path n l
    let rest := scanLines env dir_path path (n + 1) ls
    (e.1.toList ++ rest.1, e.2.toList ++ rest.2)

/-- The two recursion shapes of the scanner: scanning one file, and the
`for inc_path in includes` loop of a file whose node is `parent`. -/
inductive ScCall where
  | file (path : String)
  | incs (parent : String) (paths : List String)

/-- `cpp_scan_file`, fuel-indexed (the fuel bounds the nesting depth of the
recursion; on exhaustion the state is returned unchanged). A `file` call:
get-or-create the node; return if already visited; mark visited; if the path
is not an existing file, mark missing and report; otherwise read the lines,
collect the includes, then for each include get-or-create its node, add this
file's node as its child, and recurse. -/
def cppScanStep (env : Env) : Nat → ScCall → ScanState → ScanState
  | 0, _, st => st
  | fuel + 1, ScCall.file path, st =>
    if (getNode st.graph path).2.visited then
      { st with graph := (getNode st.graph path).1 }
    else
      if isfile env path then
        cppScanStep env fuel
          (ScCall.incs path (scanLines env (splitPath path).1 path 1 ((fsLookup env.fs path).getD [])).1)
          { graph := setVisited (getNode st.graph path).1 path,
            errors := st.errors ++ (scanLines env (splitPath path).1 path 1 ((fsLookup env.fs path).getD [])).2,
            linesRead := st.linesRead + ((fsLookup env.fs path).getD []).length }
      else
        { st with
            graph := setMissing (setVisited (getNode st.graph path).1 path) path,
            errors := st.errors ++ [errorLine (path ++ " is missing. Did you add include search paths?")] }
  | _ + 1, ScCall.incs _ [], st => st
  | fuel + 1, ScCall.incs p (inc :: rest), st =>
    cppScanStep env fuel (ScCall.incs p rest)
      (cppScanStep env fuel (ScCall.file inc)
        { st with graph := addChild (getNode st.graph inc).1 inc p })

/-- Entry point `cpp_scan_file(path)`. -/
def cpp_scan_file (env : Env) (fuel : Nat) (path : String) (st : ScanState) : ScanState :=
  cppScanStep env fuel (ScCall.file path) st

/-- `Node.print_node` as a pure string: strip a leading `./` or `.\`, indent
by `depth * INDENT` spaces, append `' *'` if `visited` and `' ?'` if
`missing`. -/
def print_node_str (depth : Nat) (n : Node) : String :=
  let s := stripDotSlash n.file
  let s := String.mk (List.replicate (depth * INDENT) ' ') ++ s
  let s := if n.visited then s ++ " *" else s
  if n.missing then s ++ " ?" else s

/-- Python truthiness of the value returned by `print_tree` (`True`, `False`
or a bare `return`, i.e. `None`): `if not child.print_tree()` aborts unless
the value is `True`. -/
def truthy : Option Bool → Bool
  | some true => true
  | _ => false

/-- The two recursion shapes of the renderer: one node, and the
`for child in self.children` loop. -/
inductive PTCall where
  | node (key : String)
  | kids (keys : List String)

/-- `Node.print_tree`, fuel-indexed (`none` = fuel exhausted; the fuel bounds
the nesting depth of the recursion). A `node` call: if `depth > MAX_DEPTH`,
print the diagnostic and return `False`; print the node; if already visited,
bare `return` (`None`); else mark visited, bump `depth` and
`max_depth_reached`, run the loop over the children, then either decrement
`depth` and return `True` or propagate the loop's early `return False`.
The loop aborts with `False` as soon as a child call returns a non-truthy
value. A key absent from the graph (impossible for scanner-built graphs,
whose children keys were all created by `get_node`) is a no-op. -/
def printTreeStep : Nat → PTCall → RenderState → Option (Option Bool × RenderState)
  | 0, _, _ => none
  | fuel + 1, PTCall.node key, st =>
    if MAX_DEPTH < st.depth then
      some (some false,
        { st with output := st.output ++ ["MAX depth reached " ++ toString st.depth] })
    else
      match findNode st.graph key with
      | none => some (some true, st)
      | some n =>
        if n.visited then
          some (none, { st with output := st.output ++ [print_node_str st.depth n] })
        else
          match printTreeStep fuel (PTCall.kids n.children)
              { st with graph := setVisited st.graph key,
                        output := st.output ++ [print_node_str st.depth n],
                        depth := st.depth + 1,
                        max_depth_reached := st.depth + 1 } with
          | none => none
          | some (some true, st') => some (some true, { st' with depth := st'.depth - 1 })
          | some (_, st') => some (some false, st')
  | _ + 1, PTCall.kids [], st => some (some true, st)
  | fuel + 1, PTCall.kids (c :: cs), st =>
    match printTreeStep fuel (PTCall.node c) st with
    | none => none
    | some (r, st1) =>
      if truthy r then printTreeStep fuel (PTCall.kids cs) st1
      else some (some false, st1)

/-- Entry point `node.print_tree()`. -/
def printTree (fuel : Nat) (key : String) (st : RenderState) :
    Option (Option Bool × RenderState) :=
  printTreeStep fuel (PTCall.node key) st

/-- The nodes enumerated by `Graph.print_top_level_nodes`:
those with `has_parent == False`, in insertion order. -/
def topLevelEntries (g : Graph) : List (String × Node) :=
  g.nodes.filter fun kn => kn.2.has_parent = false

/-- The nodes enumerated by `Graph.print_leaf_nodes`:
those with `has_children() == False`, in insertion order. -/
def leafEntries (g : Graph) : List (String × Node) :=
  g.nodes.filter fun kn => hasChildren kn.2 = false

/-- `Graph.print_top_level_nodes`: clear the visited flags (and reset the
global `depth` to 0), then print every parentless node unindented. -/
def print_top_level_nodes (g : Graph) : List String :=
  (topLevelEntries (clearVisited g)).map fun kn => print_node_str 0 kn.2

/-- `Graph.print_leaf_nodes`: clear the visited flags (and reset the global
`depth` to 0), then print every childless node unindented. -/
def print_leaf_nodes (g : Graph) : List String :=
  (leafEntries (clearVisited g)).map fun kn => print_node_str 0 kn.2

/-- Weight of one node for the renderer's termination measure: one unit for
the call on the node itself plus one per child-list step. -/
def nodeWeight (n : Node) : Nat :=
  1 + n.children.length

/-- Weight of a graph entry: visited nodes cost nothing (their render call
returns immediately). -/
def entryWeight (kn : String × Node) : Nat :=
  if kn.2.visited then 0 else nodeWeight kn.2

/-- Termination measure of `print_tree`: total weight of the unvisited part
of the graph. Strictly decreases whenever the renderer descends. -/
def gWeight (g : Graph) : Nat :=
  (g.nodes.map entryWeight).sum

/-- Fuel needed by a render call, in terms of the measure. -/
def ptNeed : PTCall → Graph → Nat
  | PTCall.node _, g => gWeight g
  | PTCall.kids cs, g => gWeight g + cs.length

/-- Growth order on graphs: scanning only ever adds keys, adds children and
raises the `has_parent` / `visited` flags. -/
def graphLe (g g' : Graph) : Prop :=
  (∀ k, (findNode g k).isSome = true → (findNode g' k).isSome = true) ∧
  (∀ k c, c ∈ childrenOf g k → c ∈ childrenOf g' k) ∧
  (∀ k, hasParentOf g k = true → hasParentOf g' k = true) ∧
  (∀ k, visitedOf g k = true → visitedOf g' k = true)

/- Concrete data used by the closed instances. -/

/-- Empty scan state. -/
def st0 : ScanState := ⟨⟨[]⟩, [], 0⟩

/-- File system with `a.c` including `b.h`, both present. -/
def envC1 : Env := ⟨[("a.c", ["#include \"b.h\""]), ("b.h", [])], [], []⟩

/-- Environment with an empty file system. -/
def envEmpty : Env := ⟨[], [], []⟩

/-- File system whose only file includes itself by its own spelling. -/
def envC10 : Env := ⟨[("d/a.c", ["#include \"a.c\""])], [], []⟩

/-- File system where `a.c` includes the nonexistent `b.h`. -/
def envC9 : Env := ⟨[("a.c", ["#include \"b.h\""])], [], []⟩

/-- The include cycle `A` ↔ `B` (each node's `children` list holds its
includer, per the source's inverted edge direction). -/
def gAB : Graph :=
  ⟨[("A", ⟨"A", ["B"], true, false, false⟩), ("B", ⟨"B", ["A"], true, false, false⟩)]⟩

/-- Fresh render state over `gAB`. -/
def rsAB : RenderState := ⟨gAB, 0, 0, []⟩

/-- Render state over `gAB` whose `depth` already exceeds `MAX_DEPTH`. -/
def rsDeep : RenderState := ⟨gAB, 1001, 0, []⟩

/-- Graph where `A` has children `B`, `C`, `D` and `B` has child `C`, so a
render from `A` meets `C` a second time before reaching `D`. -/
def gC5 : Graph :=
  ⟨[("A", ⟨"A", ["B", "C", "D"], false, false, false⟩),
    ("B", ⟨"B", ["C"], true, false, false⟩),
    ("C", ⟨"C", [], true, false, false⟩),
    ("D", ⟨"D", [], true, false, false⟩)]⟩

/-- Fresh render state over `gC5`. -/
def rsC5 : RenderState := ⟨gC5, 0, 0, []⟩

/-- A graph with one visited node, as left behind by a scan of `a.c`. -/
def gVisited : Graph := ⟨[("a.c", ⟨"a.c", [], false, true, false⟩)]⟩

/-- Scan state over `gVisited`. -/
def stVisited : ScanState := ⟨gVisited, [], 7⟩

/-- A graph where node `p` already lists `c` among its children. -/
def gPC : Graph :=
  ⟨[("p", ⟨"p", ["c"], false, false, false⟩), ("c", ⟨"c", [], true, false, false⟩)]⟩

/- ------------------------------------------------------------------ -/
/- Basic lemmas about the graph primitives.                           -/
/- ------------------------------------------------------------------ -/

theorem findNodeL_append (l1 l2 : List (String × Node)) (k : String) :
    findNodeL (l1 ++ l2) k =
      match findNodeL l1 k with
      | some n => some n
      | none => findNodeL l2 k := by
  induction l1 with
  | nil => simp [findNodeL]
  | cons kn rest ih =>
    simp only [List.cons_append, findNodeL]
    by_cases h : kn.1 == k
    · simp [h]
    · simp [h, ih]

theorem findNodeL_map_update (l : List (String × Node)) (key : String) (f : Node → Node)
    (k : String) :
    findNodeL (l.map fun kn => if kn.1 == key then (kn.1, f kn.2) else kn) k =
      if k = key then (findNodeL l k).map f else findNodeL l k := by
  induction l with
  | nil => by_cases h : k = key <;> simp [findNodeL, h]
  | cons kn rest ih =>
    by_cases h1 : kn.1 = key <;> by_cases h2 : kn.1 = k <;> by_cases h3 : k = key <;>
      simp_all [findNodeL, beq_iff_eq]

theorem findNode_updateNode (g : Graph) (key : String) (f : Node → Node) (k : String) :
    findNode (updateNode g key f) k =
      if k = key then (findNode g k).map f else findNode g k :=
  findNodeL_map_update g.nodes key f k

theorem findNode_getNode (g : Graph) (f k : String) :
    findNode (getNode g f).1 k =
      if k = f then some ((getNode g f).2) else findNode g k := by
  unfold getNode
  cases hf : findNode g f with
  | some n =>
    by_cases h : k = f
    · subst h; simp [hf]
    · simp [h]
  | none =>
    by_cases h : k = f
    · subst h
      rw [if_pos rfl]
      show findNodeL (g.nodes ++ [(k, _)]) k = some _
      rw [findNodeL_append]
      unfold findNode at hf
      simp [hf, findNodeL]
    · rw [if_neg h]
      show findNodeL (g.nodes ++ [(f, _)]) k = findNode g k
      rw [findNodeL_append]
      unfold findNode
      cases hk : findNodeL g.nodes k with
      | some n => simp
      | none =>
        simp only [findNodeL]
        rw [if_neg]
        simp [beq_iff_eq]
        exact fun hh => h hh.symm

theorem getNode_snd (g : Graph) (f : String) :
    (getNode g f).2 = (findNode g f).getD ⟨f, [], false, false, false⟩ := by
  unfold getNode
  cases hf : findNode g f <;> simp

theorem visitedOf_getNode (g : Graph) (f k : String) :
    visitedOf (getNode g f).1 k = visitedOf g k := by
  unfold visitedOf
  rw [findNode_getNode]
  by_cases h : k = f
  · subst h
    rw [getNode_snd]
    cases hf : findNode g k <;> simp
  · simp [h]

theorem hasParentOf_getNode (g : Graph) (f k : String) :
    hasParentOf (getNode g f).1 k = hasParentOf g k := by
  unfold hasParentOf
  rw [findNode_getNode]
  by_cases h : k = f
  · subst h
    rw [getNode_snd]
    cases hf : findNode g k <;> simp
  · simp [h]

theorem childrenOf_getNode (g : Graph) (f k : String) :
    childrenOf (getNode g f).1 k = childrenOf g k := by
  unfold childrenOf
  rw [findNode_getNode]
  by_cases h : k = f
  · subst h
    rw [getNode_snd]
    cases hf : findNode g k <;> simp
  · simp [h]

theorem missingOf_getNode (g : Graph) (f k : String) :
    missingOf (getNode g f).1 k = missingOf g k := by
  unfold missingOf
  rw [findNode_getNode]
  by_cases h : k = f
  · subst h
    rw [getNode_snd]
    cases hf : findNode g k <;> simp
  · simp [h]

theorem findNode_getNode_isSome (g : Graph) (f : String) :
    (findNode (getNode g f).1 f).isSome = true := by
  rw [findNode_getNode]; simp

theorem findNode_updateNode_isSome (g : Graph) (key : String) (f : Node → Node) (k : String) :
    (findNode (updateNode g key f) k).isSome = (findNode g k).isSome := by
  rw [findNode_updateNode]
  by_cases h : k = key <;> simp [h]

theorem visitedOf_setVisited (g : Graph) (key k : String) :
    visitedOf (setVisited g key) k =
      if k = key then (findNode g k).isSome else visitedOf g k := by
  unfold visitedOf setVisited
  rw [findNode_updateNode]
  by_cases h : k = key
  · subst h; cases findNode g k <;> simp
  · simp [h]

theorem childrenOf_setVisited (g : Graph) (key k : String) :
    childrenOf (setVisited g key) k = childrenOf g k := by
  unfold childrenOf setVisited
  rw [findNode_updateNode]
  by_cases h : k = key
  · subst h; cases findNode g k <;> simp
  · simp [h]

theorem hasParentOf_setVisited (g : Graph) (key k : String) :
    hasParentOf (setVisited g key) k = hasParentOf g k := by
  unfold hasParentOf setVisited
  rw [findNode_updateNode]
  by_cases h : k = key
  · subst h; cases findNode g k <;> simp
  · simp [h]

theorem missingOf_setVisited (g : Graph) (key k : String) :
    missingOf (setVisited g key) k = missingOf g k := by
  unfold missingOf setVisited
  rw [findNode_updateNode]
  by_cases h : k = key
  · subst h; cases findNode g k <;> simp
  · simp [h]

theorem visitedOf_setMissing (g : Graph) (key k : String) :
    visitedOf (setMissing g key) k = visitedOf g k := by
  unfold visitedOf setMissing
  rw [findNode_updateNode]
  by_cases h : k = key
  · subst h; cases findNode g k <;> simp
  · simp [h]

theorem childrenOf_setMissing (g : Graph) (key k : String) :
    childrenOf (setMissing g key) k = childrenOf g k := by
  unfold childrenOf setMissing
  rw [findNode_updateNode]
  by_cases h : k = key
  · subst h; cases findNode g k <;> simp
  · simp [h]

theorem hasParentOf_setMissing (g : Graph) (key k : String) :
    hasParentOf (setMissing g key) k = hasParentOf g k := by
  unfold hasParentOf setMissing
  rw [findNode_updateNode]
  by_cases h : k = key
  · subst h; cases findNode g k <;> simp
  · simp [h]

theorem missingOf_setMissing (g : Graph) (key k : String) :
    missingOf (setMissing g key) k =
      if k = key then (findNode g k).isSome else missingOf g k := by
  unfold missingOf setMissing
  rw [findNode_updateNode]
  by_cases h : k = key
  · subst h; cases findNode g k <;> simp
  · simp [h]

theorem visitedOf_updateNode (g : Graph) (key : String) (f : Node → Node) (k : String)
    (h : ∀ n, (f n).visited = n.visited) :
    visitedOf (updateNode g key f) k = visitedOf g k := by
  unfold visitedOf
  rw [findNode_updateNode]
  by_cases hk : k = key
  · subst hk; cases findNode g k <;> simp [h]
  · simp [hk]

theorem missingOf_updateNode (g : Graph) (key : String) (f : Node → Node) (k : String)
    (h : ∀ n, (f n).missing = n.missing) :
    missingOf (updateNode g key f) k = missingOf g k := by
  unfold missingOf
  rw [findNode_updateNode]
  by_cases hk : k = key
  · subst hk; cases findNode g k <;> simp [h]
  · simp [hk]

theorem childrenOf_updateNode (g : Graph) (key : String) (f : Node → Node) (k : String)
    (h : ∀ n, (f n).children = n.children) :
    childrenOf (updateNode g key f) k = childrenOf g k := by
  unfold childrenOf
  rw [findNode_updateNode]
  by_cases hk : k = key
  · subst hk; cases findNode g k <;> simp [h]
  · simp [hk]

theorem hasParentOf_updateNode (g : Graph) (key : String) (f : Node → Node) (k : String)
    (h : ∀ n, (f n).has_parent = n.has_parent) :
    hasParentOf (updateNode g key f) k = hasParentOf g k := by
  unfold hasParentOf
  rw [findNode_updateNode]
  by_cases hk : k = key
  · subst hk; cases findNode g k <;> simp [h]
  · simp [hk]

theorem visitedOf_addChild (g : Graph) (a b k : String) :
    visitedOf (addChild g a b) k = visitedOf g k := by
  unfold addChild
  split
  · rfl
  · split
    · rfl
    · rw [visitedOf_updateNode (updateNode g a fun n => { n with children := n.children ++ [b] }) b (fun n => { n with has_parent := true }) k (fun n => rfl),
        visitedOf_updateNode g a (fun n => { n with children := n.children ++ [b] }) k (fun n => rfl)]

theorem missingOf_addChild (g : Graph) (a b k : String) :
    missingOf (addChild g a b) k = missingOf g k := by
  unfold addChild
  split
  · rfl
  · split
    · rfl
    · rw [missingOf_updateNode (updateNode g a fun n => { n with children := n.children ++ [b] }) b (fun n => { n with has_parent := true }) k (fun n => rfl),
        missingOf_updateNode g a (fun n => { n with children := n.children ++ [b] }) k (fun n => rfl)]

theorem childrenOf_addChild (g : Graph) (a b k : String) :
    childrenOf (addChild g a b) k = childrenOf g k ∨
      (k = a ∧ childrenOf (addChild g a b) k = childrenOf g k ++ [b]) := by
  unfold addChild
  split
  · exact Or.inl rfl
  · rename_i p heq
    split
    · exact Or.inl rfl
    · rename_i hc
      rw [childrenOf_updateNode (updateNode g a fun n => { n with children := n.children ++ [b] }) b (fun n => { n with has_parent := true }) k (fun n => rfl)]
      by_cases hk : k = a
      · subst hk
        refine Or.inr ⟨rfl, ?_⟩
        unfold childrenOf
        rw [findNode_updateNode, if_pos rfl, heq]
        simp
      · refine Or.inl ?_
        unfold childrenOf
        rw [findNode_updateNode, if_neg hk]

theorem childrenOf_addChild_mono (g : Graph) (a b k c : String)
    (h : c ∈ childrenOf g k) : c ∈ childrenOf (addChild g a b) k := by
  rcases childrenOf_addChild g a b k with heq | ⟨_, heq⟩ <;> rw [heq]
  · exact h
  · exact List.mem_append_left _ h

theorem hasParentOf_some_of_true (g : Graph) (k : String)
    (h : hasParentOf g k = true) : (findNode g k).isSome = true := by
  unfold hasParentOf at h
  cases hf : findNode g k
  · rw [hf] at h; simp at h
  · simp

theorem hasParentOf_updTwo_self (g : Graph) (a b : String) (f1 : Node → Node)
    (hb : (findNode g b).isSome = true) :
    hasParentOf (updateNode (updateNode g a f1) b fun n => { n with has_parent := true }) b
      = true := by
  unfold hasParentOf
  rw [findNode_updateNode, if_pos rfl]
  have hs : (findNode (updateNode g a f1) b).isSome = true := by
    rw [findNode_updateNode_isSome]; exact hb
  cases hf : findNode (updateNode g a f1) b with
  | none => rw [hf] at hs; simp at hs
  | some n => simp

theorem hasParentOf_updTwo_ne (g : Graph) (a b c : String) (f1 : Node → Node)
    (hne : c ≠ b) (hpre : ∀ n, (f1 n).has_parent = n.has_parent) :
    hasParentOf (updateNode (updateNode g a f1) b fun n => { n with has_parent := true }) c
      = hasParentOf g c := by
  unfold hasParentOf
  rw [findNode_updateNode, if_neg hne, findNode_updateNode]
  by_cases h2 : c = a
  · subst h2; cases findNode g c <;> simp [hpre]
  · simp [h2]

theorem hasParentOf_addChild_mono (g : Graph) (a b k : String)
    (h : hasParentOf g k = true) : hasParentOf (addChild g a b) k = true := by
  unfold addChild
  split
  · exact h
  · split
    · exact h
    · by_cases hk : k = b
      · subst hk
        exact hasParentOf_updTwo_self g a k _ (hasParentOf_some_of_true g k h)
      · rw [hasParentOf_updTwo_ne g a b k (fun n => { n with children := n.children ++ [b] }) hk (fun n => rfl)]
        exact h

theorem findNode_addChild_isSome (g : Graph) (a b k : String) :
    (findNode (addChild g a b) k).isSome = (findNode g k).isSome := by
  unfold addChild
  split
  · rfl
  · split
    · rfl
    · rw [findNode_updateNode_isSome, findNode_updateNode_isSome]

theorem addChild_mem (g : Graph) (a b : String) (ha : (findNode g a).isSome = true) :
    b ∈ childrenOf (addChild g a b) a := by
  unfold addChild
  split
  · rename_i heq
    rw [heq] at ha
    simp at ha
  · rename_i p heq
    split
    · rename_i hc
      unfold childrenOf
      rw [heq]
      simpa using List.mem_of_elem_eq_true hc
    · rw [childrenOf_updateNode (updateNode g a fun n => { n with children := n.children ++ [b] }) b (fun n => { n with has_parent := true }) a (fun n => rfl)]
      unfold childrenOf
      rw [findNode_updateNode, if_pos rfl, heq]
      simp

theorem childParentInv_iff (g : Graph) :
    childParentInv g = true ↔
      ∀ kn ∈ g.nodes, ∀ c ∈ kn.2.children, hasParentOf g c = true := by
  unfold childParentInv
  simp [List.all_eq_true]

theorem childParentInv_addChild (g : Graph) (a b : String)
    (hb : (findNode g b).isSome = true) (hinv : childParentInv g = true) :
    childParentInv (addChild g a b) = true := by
  unfold addChild
  split
  · exact hinv
  · rename_i p heq
    split
    · exact hinv
    · rename_i hc
      rw [childParentInv_iff]
      intro kn2 hmem2 c hc2
      by_cases hcb : c = b
      · subst hcb
        exact hasParentOf_updTwo_self g a c _ hb
      · rw [hasParentOf_updTwo_ne g a b c (fun n => { n with children := n.children ++ [b] }) hcb (fun n => rfl)]
        unfold updateNode at hmem2
        simp only [List.mem_map] at hmem2
        obtain ⟨kn1, hkn1, hEq2⟩ := hmem2
        obtain ⟨kn0, hkn0, hEq1⟩ := hkn1
        have hch : kn2.2.children = kn0.2.children ∨
            kn2.2.children = kn0.2.children ++ [b] := by
          subst hEq2
          subst hEq1
          by_cases e1 : (kn0.1 == a) = true
          · rw [if_pos e1]
            by_cases e2 : ((kn0.1, { kn0.2 with children := kn0.2.children ++ [b] }) :
                String × Node).1 == b
            · rw [if_pos e2]; simp
            · rw [if_neg e2]; simp
          · rw [if_neg e1]
            by_cases e2 : (kn0.1 == b) = true
            · rw [if_pos e2]; simp
            · rw [if_neg e2]; simp
        have hmem := (childParentInv_iff g).mp hinv kn0 hkn0
        rcases hch with h | h
        · exact hmem c (h ▸ hc2)
        · rw [h] at hc2
          rcases List.mem_append.mp hc2 with hmm | hmm
          · exact hmem c hmm
          · simp at hmm
            exact absurd hmm hcb


theorem childParentInv_setVisited (g : Graph) (key : String)
    (hinv : childParentInv g = true) : childParentInv (setVisited g key) = true := by
  rw [childParentInv_iff]
  intro kn' hmem' c hc'
  rw [hasParentOf_setVisited]
  unfold setVisited updateNode at hmem'
  simp only [List.mem_map] at hmem'
  obtain ⟨kn0, hkn0, hEq⟩ := hmem'
  have hch : kn'.2.children = kn0.2.children := by
    subst hEq; by_cases e : kn0.1 == key <;> simp [e]
  exact (childParentInv_iff g).mp hinv kn0 hkn0 c (hch ▸ hc')

theorem childParentInv_setMissing (g : Graph) (key : String)
    (hinv : childParentInv g = true) : childParentInv (setMissing g key) = true := by
  rw [childParentInv_iff]
  intro kn' hmem' c hc'
  rw [hasParentOf_setMissing]
  unfold setMissing updateNode at hmem'
  simp only [List.mem_map] at hmem'
  obtain ⟨kn0, hkn0, hEq⟩ := hmem'
  have hch : kn'.2.children = kn0.2.children := by
    subst hEq; by_cases e : kn0.1 == key <;> simp [e]
  exact (childParentInv_iff g).mp hinv kn0 hkn0 c (hch ▸ hc')

theorem visitedOf_some_of_true (g : Graph) (k : String)
    (h : visitedOf g k = true) : (findNode g k).isSome = true := by
  unfold visitedOf at h
  cases hf : findNode g k
  · rw [hf] at h; simp at h
  · simp

theorem findNodeL_mem : ∀ (l : List (String × Node)) (k : String) (n : Node),
    findNodeL l k = some n → (k, n) ∈ l := by
  intro l
  induction l with
  | nil => intro k n h; simp [findNodeL] at h
  | cons kn rest ih =>
    intro k n h
    rw [findNodeL] at h
    by_cases he : (kn.1 == k) = true
    · rw [if_pos he] at h
      have h1 : kn.1 = k := by simpa using he
      have h2 : kn.2 = n := by injection h
      have hkn : kn = (k, n) := by cases kn; simp_all
      rw [hkn]
      exact List.mem_cons_self _ _
    · rw [if_neg he] at h
      exact List.mem_cons_of_mem _ (ih k n h)

theorem findNode_mem (g : Graph) (k : String) (n : Node)
    (h : findNode g k = some n) : (k, n) ∈ g.nodes :=
  findNodeL_mem g.nodes k n h

theorem hasParent_of_inv_mem (g : Graph) (B c : String)
    (hinv : childParentInv g = true) (hc : c ∈ childrenOf g B) :
    hasParentOf g c = true := by
  unfold childrenOf at hc
  cases hfb : findNode g B with
  | none => rw [hfb] at hc; simp at hc
  | some nB =>
    rw [hfb] at hc
    simp at hc
    exact (childParentInv_iff g).mp hinv (B, nB) (findNode_mem g B nB hfb) c hc

theorem childParentInv_getNode (g : Graph) (f : String)
    (hinv : childParentInv g = true) : childParentInv (getNode g f).1 = true := by
  rw [childParentInv_iff]
  intro kn' hmem' c hc'
  rw [hasParentOf_getNode]
  unfold getNode at hmem'
  cases hf : findNode g f with
  | some n =>
    rw [hf] at hmem'
    exact (childParentInv_iff g).mp hinv kn' hmem' c hc'
  | none =>
    rw [hf] at hmem'
    simp only [List.mem_append, List.mem_singleton] at hmem'
    rcases hmem' with h | h
    · exact (childParentInv_iff g).mp hinv kn' h c hc'
    · subst h; simp at hc'

theorem graphLe_refl (g : Graph) : graphLe g g :=
  ⟨fun _ h => h, fun _ _ h => h, fun _ h => h, fun _ h => h⟩

theorem graphLe_trans {g1 g2 g3 : Graph} (h12 : graphLe g1 g2) (h23 : graphLe g2 g3) :
    graphLe g1 g3 :=
  ⟨fun k h => h23.1 k (h12.1 k h),
   fun k c h => h23.2.1 k c (h12.2.1 k c h),
   fun k h => h23.2.2.1 k (h12.2.2.1 k h),
   fun k h => h23.2.2.2 k (h12.2.2.2 k h)⟩

theorem graphLe_getNode (g : Graph) (f : String) : graphLe g (getNode g f).1 := by
  refine ⟨fun k h => ?_, fun k c h => ?_, fun k h => ?_, fun k h => ?_⟩
  · rw [findNode_getNode]
    by_cases hk : k = f <;> simp [hk, h]
  · rw [childrenOf_getNode]; exact h
  · rw [hasParentOf_getNode]; exact h
  · rw [visitedOf_getNode]; exact h

theorem graphLe_setVisited (g : Graph) (key : String) : graphLe g (setVisited g key) := by
  refine ⟨fun k h => ?_, fun k c h => ?_, fun k h => ?_, fun k h => ?_⟩
  · unfold setVisited; rw [findNode_updateNode_isSome]; exact h
  · rw [childrenOf_setVisited]; exact h
  · rw [hasParentOf_setVisited]; exact h
  · rw [visitedOf_setVisited]
    by_cases hk : k = key
    · subst hk; rw [if_pos rfl]; exact visitedOf_some_of_true g k h
    · rw [if_neg hk]; exact h

theorem graphLe_setMissing (g : Graph) (key : String) : graphLe g (setMissing g key) := by
  refine ⟨fun k h => ?_, fun k c h => ?_, fun k h => ?_, fun k h => ?_⟩
  · unfold setMissing; rw [findNode_updateNode_isSome]; exact h
  · rw [childrenOf_setMissing]; exact h
  · rw [hasParentOf_setMissing]; exact h
  · rw [visitedOf_setMissing]; exact h

theorem graphLe_addChild (g : Graph) (a b : String) : graphLe g (addChild g a b) := by
  refine ⟨fun k h => ?_, fun k c h => ?_, fun k h => ?_, fun k h => ?_⟩
  · rw [findNode_addChild_isSome]; exact h
  · exact childrenOf_addChild_mono g a b k c h
  · exact hasParentOf_addChild_mono g a b k h
  · rw [visitedOf_addChild]; exact h

theorem scan_mono (env : Env) : ∀ (fuel : Nat) (call : ScCall) (st : ScanState),
    graphLe st.graph (cppScanStep env fuel call st).graph := by
  intro fuel
  induction fuel with
  | zero => intro call st; exact graphLe_refl _
  | succ f ih =>
    intro call st
    cases call with
    | file path =>
      simp only [cppScanStep]
      split
      · exact graphLe_getNode st.graph path
      · split
        · refine graphLe_trans ?_ (ih _ _)
          exact graphLe_trans (graphLe_getNode st.graph path) (graphLe_setVisited _ path)
        · exact graphLe_trans (graphLe_trans (graphLe_getNode st.graph path)
            (graphLe_setVisited _ path)) (graphLe_setMissing _ path)
    | incs p l =>
      cases l with
      | nil => simp only [cppScanStep]; exact graphLe_refl _
      | cons inc rest =>
        simp only [cppScanStep]
        refine graphLe_trans ?_ (ih (ScCall.incs p rest) _)
        refine graphLe_trans ?_ (ih (ScCall.file inc) _)
        exact graphLe_trans (graphLe_getNode st.graph inc) (graphLe_addChild _ inc p)

theorem scan_inv (env : Env) : ∀ (fuel : Nat) (call : ScCall) (st : ScanState),
    childParentInv st.graph = true →
    (∀ p l, call = ScCall.incs p l → (findNode st.graph p).isSome = true) →
    childParentInv (cppScanStep env fuel call st).graph = true := by
  intro fuel
  induction fuel with
  | zero => intro call st hinv _; exact hinv
  | succ f ih =>
    intro call st hinv hpres
    cases call with
    | file path =>
      simp only [cppScanStep]
      split
      · exact childParentInv_getNode st.graph path hinv
      · split
        · refine ih _ _ ?_ ?_
          · exact childParentInv_setVisited _ path (childParentInv_getNode st.graph path hinv)
          · intro p l hEq
            injection hEq with h1 _
            subst h1
            show (findNode (setVisited (getNode st.graph path).1 path) path).isSome = true
            unfold setVisited
            rw [findNode_updateNode_isSome]
            exact findNode_getNode_isSome st.graph path
        · exact childParentInv_setMissing _ path
            (childParentInv_setVisited _ path (childParentInv_getNode st.graph path hinv))
    | incs p l =>
      cases l with
      | nil => simp only [cppScanStep]; exact hinv
      | cons inc rest =>
        simp only [cppScanStep]
        have hp : (findNode st.graph p).isSome = true := hpres p (inc :: rest) rfl
        have hinv1 : childParentInv (addChild (getNode st.graph inc).1 inc p) = true := by
          refine childParentInv_addChild _ inc p ?_
            (childParentInv_getNode st.graph inc hinv)
          exact (graphLe_getNode st.graph inc).1 p hp
        have hp1 : (findNode (addChild (getNode st.graph inc).1 inc p) p).isSome = true := by
          rw [findNode_addChild_isSome]
          exact (graphLe_getNode st.graph inc).1 p hp
        refine ih (ScCall.incs p rest) _ ?_ ?_
        · exact ih (ScCall.file inc) _ hinv1 (fun _ _ h => by cases h)
        · intro p' l' hEq
          injection hEq with h1 _
          subst h1
          exact (scan_mono env f (ScCall.file inc) _).1 p hp1

theorem scan_incs_mem (env : Env) : ∀ (incs : List String) (fuel : Nat) (p B : String)
    (st : ScanState), B ∈ incs → incs.length ≤ fuel →
    p ∈ childrenOf (cppScanStep env fuel (ScCall.incs p incs) st).graph B := by
  intro incs
  induction incs with
  | nil => intro fuel p B st hB _; simp at hB
  | cons inc rest ih =>
    intro fuel p B st hB hlen
    cases fuel with
    | zero => simp at hlen
    | succ f =>
      simp only [cppScanStep]
      rcases List.mem_cons.mp hB with rfl | hBrest
      · have h1 : p ∈ childrenOf (addChild (getNode st.graph B).1 B p) B :=
          addChild_mem _ B p (findNode_getNode_isSome st.graph B)
        have h2 := (scan_mono env f (ScCall.file B)
          { st with graph := addChild (getNode st.graph B).1 B p }).2.1 B p h1
        exact (scan_mono env f (ScCall.incs p rest)
          (cppScanStep env f (ScCall.file B)
            { st with graph := addChild (getNode st.graph B).1 B p })).2.1 B p h2
      · refine ih f p B _ hBrest ?_
        simpa using Nat.le_of_succ_le_succ hlen

theorem getNode_snd_visited_false (g : Graph) (A : String)
    (hnv : visitedOf g A = false) : (getNode g A).2.visited = false := by
  rw [getNode_snd]
  unfold visitedOf at hnv
  cases hfa : findNode g A <;> rw [hfa] at hnv <;> simp_all

theorem scan_edge_hasParent (env : Env) (fuel : Nat) (A B : String) (st : ScanState)
    (lines : List String)
    (hinv : childParentInv st.graph = true)
    (hnv : visitedOf st.graph A = false)
    (hf : fsLookup env.fs A = some lines)
    (hB : B ∈ (scanLines env (splitPath A).1 A 1 lines).1)
    (hfuel : (scanLines env (splitPath A).1 A 1 lines).1.length ≤ fuel) :
    A ∈ childrenOf (cpp_scan_file env (fuel + 1) A st).graph B ∧
    hasParentOf (cpp_scan_file env (fuel + 1) A st).graph A = true := by
  have hgn : (getNode st.graph A).2.visited = false := getNode_snd_visited_false st.graph A hnv
  have hisf : isfile env A = true := by unfold isfile; rw [hf]; rfl
  unfold cpp_scan_file
  simp only [cppScanStep]
  rw [if_neg (by rw [hgn]; exact Bool.false_ne_true)]
  rw [if_pos hisf]
  simp only [hf, Option.getD_some]
  have hmem : A ∈ childrenOf (cppScanStep env fuel
      (ScCall.incs A (scanLines env (splitPath A).1 A 1 lines).1)
      { graph := setVisited (getNode st.graph A).1 A,
        errors := st.errors ++ (scanLines env (splitPath A).1 A 1 lines).2,
        linesRead := st.linesRead + lines.length }).graph B :=
    scan_incs_mem env _ fuel A B _ hB hfuel
  refine ⟨hmem, ?_⟩
  have hinv1 : childParentInv (setVisited (getNode st.graph A).1 A) = true :=
    childParentInv_setVisited _ A (childParentInv_getNode st.graph A hinv)
  have hpres : (findNode (setVisited (getNode st.graph A).1 A) A).isSome = true := by
    unfold setVisited
    rw [findNode_updateNode_isSome]
    exact findNode_getNode_isSome st.graph A
  have hinvF := scan_inv env fuel
    (ScCall.incs A (scanLines env (splitPath A).1 A 1 lines).1)
    { graph := setVisited (getNode st.graph A).1 A,
      errors := st.errors ++ (scanLines env (splitPath A).1 A 1 lines).2,
      linesRead := st.linesRead + lines.length }
    hinv1 (fun p l hEq => by injection hEq with h1 _; subst h1; exact hpres)
  exact hasParent_of_inv_mem _ B A hinvF hmem

/-- C1: if file `A` exists, has not been scanned yet, and some line of its
text yields an include that the scanner resolves to `B` (and does not discard
as a system header), then after `cpp_scan_file` on `A` (with enough fuel for
`A`'s include list) the node of `B` lists `A` among its children and `A`'s
node has `has_parent = true` — edges point from the included file to its
includer. The `childParentInv` hypothesis states that every edge already in
the starting graph was produced by `add_child`; it holds in particular for
the empty graph a run starts from. -/
theorem c1_scan_adds_edge (env : Env) (fuel : Nat) (A B : String) (st : ScanState)
    (lines : List String)
    (hinv : childParentInv st.graph = true)
    (hnv : visitedOf st.graph A = false)
    (hf : fsLookup env.fs A = some lines)
    (hB : B ∈ (scanLines env (splitPath A).1 A 1 lines).1)
    (hfuel : (scanLines env (splitPath A).1 A 1 lines).1.length ≤ fuel) :
    A ∈ childrenOf (cpp_scan_file env (fuel + 1) A st).graph B ∧
    hasParentOf (cpp_scan_file env (fuel + 1) A st).graph A = true :=
  scan_edge_hasParent env fuel A B st lines hinv hnv hf hB hfuel

/-- Witness for C1 at a concrete two-file system: `a.c` includes `b.h`. -/
theorem c1_witness :
    "a.c" ∈ childrenOf (cpp_scan_file envC1 (1 + 1) "a.c" st0).graph "b.h" ∧
    hasParentOf (cpp_scan_file envC1 (1 + 1) "a.c" st0).graph "a.c" = true :=
  c1_scan_adds_edge envC1 1 "a.c" "b.h" st0 ["#include \"b.h\""]
    (by decide) (by decide) (by decide) (by decide) (by decide)

/-- C2: (1) a `cpp_scan_file` call always leaves the file's node `visited`;
(2) a call on a path whose node is already `visited` returns the state
unchanged — no line is read, no node or edge added; (3) `add_child` with a
child that is already present leaves the graph unchanged. -/
theorem c2_scan_idempotent (env : Env) (fuel fuel2 : Nat) (A : String)
    (st st2 : ScanState) (g : Graph) (p c : String)
    (h1 : visitedOf st2.graph A = true)
    (h2 : c ∈ childrenOf g p) :
    visitedOf (cpp_scan_file env (fuel + 1) A st).graph A = true ∧
    cpp_scan_file env fuel2 A st2 = st2 ∧
    addChild g p c = g := by
  refine ⟨?_, ?_, ?_⟩
  · unfold cpp_scan_file
    simp only [cppScanStep]
    split
    · rename_i hv
      show visitedOf (getNode st.graph A).1 A = true
      rw [visitedOf_getNode]
      rw [getNode_snd] at hv
      unfold visitedOf
      cases hfa : findNode st.graph A <;> rw [hfa] at hv <;> simp_all
    · split
      · refine (scan_mono env fuel _ _).2.2.2 A ?_
        show visitedOf (setVisited (getNode st.graph A).1 A) A = true
        rw [visitedOf_setVisited, if_pos rfl]
        exact findNode_getNode_isSome st.graph A
      · show visitedOf (setMissing (setVisited (getNode st.graph A).1 A) A) A = true
        rw [visitedOf_setMissing, visitedOf_setVisited, if_pos rfl]
        exact findNode_getNode_isSome st.graph A
  · cases fuel2 with
    | zero => rfl
    | succ f2 =>
      unfold cpp_scan_file
      simp only [cppScanStep]
      have hgn2 : (getNode st2.graph A).2.visited = true := by
        rw [getNode_snd]
        unfold visitedOf at h1
        cases hfa : findNode st2.graph A <;> rw [hfa] at h1 <;> simp_all
      rw [if_pos hgn2]
      have hsame : (getNode st2.graph A).1 = st2.graph := by
        unfold getNode
        cases hfa : findNode st2.graph A with
        | none =>
          exfalso
          unfold visitedOf at h1
          rw [hfa] at h1
          simp at h1
        | some n => rfl
      rw [hsame]
  · unfold addChild
    split
    · rfl
    · rename_i q heq
      have hc : q.children.contains c = true := by
        unfold childrenOf at h2
        rw [heq] at h2
        simp at h2
        exact List.elem_eq_true_of_mem h2
      rw [if_pos hc]

/-- Witness for C2: the scan of `a.c` marks it visited; a scan of the
already-visited `a.c` is the identity; `add_child` on graph `gPC`, whose node
`p` already lists `c`, is the identity. -/
theorem c2_witness :
    visitedOf (cpp_scan_file envEmpty (0 + 1) "a.c" st0).graph "a.c" = true ∧
    cpp_scan_file envEmpty 5 "a.c" stVisited = stVisited ∧
    addChild gPC "p" "c" = gPC :=
  c2_scan_idempotent envEmpty 0 5 "a.c" st0 stVisited gPC "p" "c"
    (by decide) (by decide)

/-- C8: scanning a path that is not an existing file marks its node visited
and missing, emits the missing-file diagnostic, reads no lines, and adds no
edge anywhere (all `children` lists and `has_parent` flags are unchanged). -/
theorem c8_missing_file (env : Env) (fuel : Nat) (path : String) (st : ScanState)
    (hnv : visitedOf st.graph path = false)
    (hmiss : fsLookup env.fs path = none) :
    visitedOf (cpp_scan_file env (fuel + 1) path st).graph path = true ∧
    missingOf (cpp_scan_file env (fuel + 1) path st).graph path = true ∧
    (cpp_scan_file env (fuel + 1) path st).errors =
      st.errors ++ [errorLine (path ++ " is missing. Did you add include search paths?")] ∧
    (cpp_scan_file env (fuel + 1) path st).linesRead = st.linesRead ∧
    (∀ k, childrenOf (cpp_scan_file env (fuel + 1) path st).graph k = childrenOf st.graph k) ∧
    (∀ k, hasParentOf (cpp_scan_file env (fuel + 1) path st).graph k = hasParentOf st.graph k) := by
  have hgn : (getNode st.graph path).2.visited = false :=
    getNode_snd_visited_false st.graph path hnv
  have hisf : isfile env path = false := by unfold isfile; rw [hmiss]; rfl
  unfold cpp_scan_file
  simp only [cppScanStep]
  rw [if_neg (by rw [hgn]; exact Bool.false_ne_true)]
  rw [if_neg (by rw [hisf]; exact Bool.false_ne_true)]
  refine ⟨?_, ?_, rfl, rfl, ?_, ?_⟩
  · show visitedOf (setMissing (setVisited (getNode st.graph path).1 path) path) path = true
    rw [visitedOf_setMissing, visitedOf_setVisited, if_pos rfl]
    exact findNode_getNode_isSome st.graph path
  · show missingOf (setMissing (setVisited (getNode st.graph path).1 path) path) path = true
    rw [missingOf_setMissing, if_pos rfl]
    unfold setVisited
    rw [findNode_updateNode_isSome]
    exact findNode_getNode_isSome st.graph path
  · intro k
    show childrenOf (setMissing (setVisited (getNode st.graph path).1 path) path) k = _
    rw [childrenOf_setMissing, childrenOf_setVisited, childrenOf_getNode]
  · intro k
    show hasParentOf (setMissing (setVisited (getNode st.graph path).1 path) path) k = _
    rw [hasParentOf_setMissing, hasParentOf_setVisited, hasParentOf_getNode]

/-- Witness for C8: scanning `a.c` against an empty file system. -/
theorem c8_witness :
    visitedOf (cpp_scan_file envEmpty (0 + 1) "a.c" st0).graph "a.c" = true ∧
    missingOf (cpp_scan_file envEmpty (0 + 1) "a.c" st0).graph "a.c" = true ∧
    (cpp_scan_file envEmpty (0 + 1) "a.c" st0).errors =
      st0.errors ++ [errorLine ("a.c" ++ " is missing. Did you add include search paths?")] ∧
    (cpp_scan_file envEmpty (0 + 1) "a.c" st0).linesRead = st0.linesRead ∧
    (∀ k, childrenOf (cpp_scan_file envEmpty (0 + 1) "a.c" st0).graph k = childrenOf st0.graph k) ∧
    (∀ k, hasParentOf (cpp_scan_file envEmpty (0 + 1) "a.c" st0).graph k = hasParentOf st0.graph k) :=
  c8_missing_file envEmpty 0 "a.c" st0 (by decide) (by decide)

theorem resolveLoop_find (env : Env) (inc : String) (l : List String) :
    resolveLoop env inc l =
      match l.find? (fun sp => isfile env (joinPath sp inc)) with
      | some sp => joinPath sp inc
      | none => inc := by
  induction l with
  | nil => rfl
  | cons sp rest ih =>
    rw [resolveLoop, List.find?]
    by_cases h : isfile env (joinPath sp inc) = true
    · rw [if_pos h, h]
    · rw [if_neg h, ih]
      cases hh : isfile env (joinPath sp inc)
      · rfl
      · exact absurd hh h

/-- C3: `resolve_path` returns the including directory joined with the
spelling when the include is quoted and that joined path is an existing file;
otherwise it returns the first registered search path (in registration order)
whose join with the spelling is an existing file; and when no candidate
exists it returns the spelling unchanged. -/
theorem c3_resolve_path_spec (env : Env) (dir inc : String) (rel : Bool) :
    resolve_path env dir inc rel =
      if rel = true ∧ isfile env (joinPath dir inc) = true then joinPath dir inc
      else
        match env.inc_search_paths.find? (fun sp => isfile env (joinPath sp inc)) with
        | some sp => joinPath sp inc
        | none => inc := by
  unfold resolve_path
  cases rel with
  | false =>
    rw [if_neg (by simp)]
    rw [if_neg (by simp)]
    exact resolveLoop_find env inc env.inc_search_paths
  | true =>
    rw [if_pos rfl]
    by_cases h : isfile env (joinPath dir inc) = true
    · rw [if_pos h, if_pos ⟨rfl, h⟩]
    · rw [if_neg h, if_neg (fun hh => h hh.2)]
      exact resolveLoop_find env inc env.inc_search_paths

theorem scanLines_append (env : Env) (dp path : String) (xs ys : List String) :
    ∀ n, scanLines env dp path n (xs ++ ys) =
      ((scanLines env dp path n xs).1 ++ (scanLines env dp path (n + xs.length) ys).1,
       (scanLines env dp path n xs).2 ++ (scanLines env dp path (n + xs.length) ys).2) := by
  induction xs with
  | nil => intro n; simp [scanLines]
  | cons x xs ih =>
    intro n
    rw [List.cons_append, scanLines, scanLines, ih (n + 1)]
    have harith : n + 1 + xs.length = n + (xs.length + 1) := by omega
    rw [harith]
    simp [List.append_assoc]

/-- C7: if a line of a scanned file matches the include pattern with
mismatched delimiters (`<…"` or `"…>`), the scan of the file's lines emits
exactly one extra diagnostic for it — naming the file and the 1-based line
number — that line contributes no include, and the remaining lines are still
processed (line numbers intact). -/
theorem c7_mismatched_delims (env : Env) (dp path : String) (pre post : List String)
    (line : String) (op cl : Char) (body : List Char)
    (hm : cppIncMatch line.toList = some (op, body, cl))
    (hmm : (op = '<' ∧ cl = '\"') ∨ (op = '\"' ∧ cl = '>')) :
    scanLines env dp path 1 (pre ++ line :: post) =
      ((scanLines env dp path 1 pre).1 ++
         (scanLines env dp path (pre.length + 2) post).1,
       (scanLines env dp path 1 pre).2 ++
         errorLine (path ++ ": Invalid #include directive at line " ++
           toString (pre.length + 1) ++ ": " ++ pyStrip line) ::
         (scanLines env dp path (pre.length + 2) post).2) := by
  rw [scanLines_append]
  have h1 : (1 : Nat) + pre.length = pre.length + 1 := by omega
  rw [h1]
  rw [scanLines]
  have hline : scanLine env dp path (pre.length + 1) line =
      (none, some (errorLine (path ++ ": Invalid #include directive at line " ++
        toString (pre.length + 1) ++ ": " ++ pyStrip line))) := by
    unfold scanLine
    simp only [hm]
    have hcond : ((op == '<' && cl == '\"') || (op == '\"' && cl == '>')) = true := by
      rcases hmm with ⟨h1, h2⟩ | ⟨h1, h2⟩ <;> subst h1 <;> subst h2 <;> rfl
    rw [if_pos hcond]
  rw [hline]
  have h2 : pre.length + 1 + 1 = pre.length + 2 := by omega
  rw [h2]
  rfl

/-- Witness for C7: the spec's own example — `#include <foo.h"` on line 5 of
`x.cpp` (four lines precede it, one follows). -/
theorem c7_witness :
    scanLines envEmpty "" "x.cpp" 1 (["", "", "", ""] ++ "#include <foo.h\"" :: [""]) =
      ((scanLines envEmpty "" "x.cpp" 1 ["", "", "", ""]).1 ++
         (scanLines envEmpty "" "x.cpp" (["", "", "", ""].length + 2) [""]).1,
       (scanLines envEmpty "" "x.cpp" 1 ["", "", "", ""]).2 ++
         errorLine ("x.cpp" ++ ": Invalid #include directive at line " ++
           toString (["", "", "", ""].length + 1) ++ ": " ++ pyStrip "#include <foo.h\"") ::
         (scanLines envEmpty "" "x.cpp" (["", "", "", ""].length + 2) [""]).2) :=
  c7_mismatched_delims envEmpty "" "x.cpp" ["", "", "", ""] [""]
    "#include <foo.h\"" '<' '\"' "foo.h".toList (by decide) (Or.inl ⟨rfl, rfl⟩)

theorem dropWhile_space_replicate (n : Nat) (l : List Char) :
    (List.replicate n ' ' ++ l).dropWhile (fun c => c == ' ') =
      l.dropWhile (fun c => c == ' ') := by
  induction n with
  | zero => rfl
  | succ m ih =>
    rw [List.replicate_succ, List.cons_append, List.dropWhile_cons]
    rw [if_pos (by rfl)]
    exact ih

theorem takeWhile_all_append {α : Type} (p : α → Bool) (s : List α) (c : α) (r : List α)
    (hs : ∀ x ∈ s, p x = true) (hc : p c = false) :
    (s ++ c :: r).takeWhile p = s ∧ (s ++ c :: r).dropWhile p = c :: r := by
  induction s with
  | nil =>
    constructor
    · rw [List.nil_append, List.takeWhile_cons, hc]
      rw [if_neg Bool.false_ne_true]
    · rw [List.nil_append, List.dropWhile_cons,
        if_neg (by rw [hc]; exact Bool.false_ne_true)]
  | cons a as ih =>
    have ha : p a = true := hs a (List.mem_cons_self a as)
    have ihh := ih fun x hx => hs x (List.mem_cons_of_mem a hx)
    constructor
    · rw [List.cons_append, List.takeWhile_cons, ha, ihh.1]
      rfl
    · rw [List.cons_append, List.dropWhile_cons, if_pos ha, ihh.2]

/-- C4 counterexample: the line `  #include "foo.h"` — the spec's
whitespace-tolerated form — is NOT matched by the scanner's pattern (which is
applied with `re.match` and begins with a literal `#`), while the same line
without the two leading spaces is matched. -/
theorem c4_counterexample :
    cppIncMatch "  #include \"foo.h\"".toList = none ∧
    cppIncMatch "#include \"foo.h\"".toList = some ('\"', "foo.h".toList, '\"') :=
  ⟨rfl, rfl⟩

/-- C4 (amended): a line is matched iff the include directive starts at the
very first character: a leading `'#'`, any number of spaces, `include`, any
number of spaces, an opening delimiter, the spelling (no `'>'` or `'"'`
characters), a closing delimiter; the spelling is extracted. Leading
whitespace before the `'#'` is NOT tolerated: any line starting with a space
is rejected. -/
theorem c4_amended_match (sp1 sp2 : Nat) (s rest : List Char) (op cl : Char)
    (hop : op = '<' ∨ op = '\"') (hcl : cl = '>' ∨ cl = '\"')
    (hs : ∀ x ∈ s, (!(x == '>') && !(x == '\"')) = true) :
    cppIncMatch ('#' :: (List.replicate sp1 ' ' ++ ("include".toList ++
        (List.replicate sp2 ' ' ++ op :: (s ++ cl :: rest))))) = some (op, s, cl) ∧
    ∀ l : List Char, cppIncMatch (' ' :: l) = none := by
  constructor
  · show matchAfterHash _ = _
    unfold matchAfterHash
    rw [dropWhile_space_replicate]
    show matchAfterInclude (List.replicate sp2 ' ' ++ op :: (s ++ cl :: rest)) = _
    unfold matchAfterInclude
    rw [dropWhile_space_replicate]
    have hop' : (op == ' ') = false := by rcases hop with h | h <;> subst h <;> rfl
    rw [List.dropWhile_cons, if_neg (by rw [hop']; exact Bool.false_ne_true)]
    show matchAfterOpen op (s ++ cl :: rest) = _
    unfold matchAfterOpen
    have hcond : (op == '<' || op == '\"') = true := by
      rcases hop with h | h <;> subst h <;> rfl
    rw [if_pos hcond]
    have hcl' : (!(cl == '>') && !(cl == '\"')) = false := by
      rcases hcl with h | h <;> subst h <;> rfl
    have hta := takeWhile_all_append (fun d => !(d == '>') && !(d == '\"')) s cl rest hs hcl'
    rw [hta.1, hta.2]
  · intro l
    rfl

/-- Witness for C4 (amended): `# include <foo.h>` (one space after `#`)
is matched with opener `<`, spelling `foo.h`, closer `>`. -/
theorem c4_witness :
    cppIncMatch ('#' :: (List.replicate 1 ' ' ++ ("include".toList ++
        (List.replicate 0 ' ' ++ '<' :: ("foo.h".toList ++ '>' :: []))))) =
      some ('<', "foo.h".toList, '>') :=
  (c4_amended_match 1 0 "foo.h".toList [] '<' '>' (Or.inl rfl) (Or.inl rfl)
    (by decide)).1

/-- C5 evaluated at the failing input: rendering from `A` in the graph where
`A`'s children are `[B, C, D]` and `B`'s child is `C`. When the loop over
`A`'s children meets the already-visited `C`, `C` is printed once with its
`*` marker and not descended into — but `print_tree` then returns the bare
`return` value (`None`), which the caller's `if not child.print_tree()` takes
as failure, so the remaining sibling `D` is never printed and the call
returns `False`. The claim says the render continues with `D`. -/
theorem c5_visited_child_aborts_render :
    (printTree 10 "A" rsC5).map (fun r => (r.1, r.2.output)) =
      some (some false, ["A", "  B", "    C", "  C *"]) ∧
    "  D" ∉ ["A", "  B", "    C", "  C *"] := by
  constructor
  · rfl
  · decide

theorem str_mk_nil_append (s : String) : String.mk [] ++ s = s := by
  cases s
  rfl

theorem str_append_nil (s : String) : s ++ "" = s := by
  cases s with
  | mk d =>
    show String.mk (d ++ []) = String.mk d
    rw [List.append_nil]

theorem print_node_str_zero (n : Node) (h : n.visited = false) :
    print_node_str 0 n = stripDotSlash n.file ++ (if n.missing then " ?" else "") := by
  show (if n.missing then
      (if n.visited
        then (String.mk (List.replicate (0 * INDENT) ' ') ++ stripDotSlash n.file) ++ " *"
        else String.mk (List.replicate (0 * INDENT) ' ') ++ stripDotSlash n.file) ++ " ?"
      else (if n.visited
        then (String.mk (List.replicate (0 * INDENT) ' ') ++ stripDotSlash n.file) ++ " *"
        else String.mk (List.replicate (0 * INDENT) ' ') ++ stripDotSlash n.file))
    = stripDotSlash n.file ++ (if n.missing then " ?" else "")
  rw [h]
  rw [show List.replicate (0 * INDENT) ' ' = ([] : List Char) from rfl]
  rw [str_mk_nil_append, if_neg Bool.false_ne_true]
  cases hm : n.missing
  · simp [str_append_nil]
  · simp

theorem listing_map_aux (q : Node → Bool)
    (hq : ∀ n : Node, q { n with visited := false } = q n) :
    ∀ l : List (String × Node),
    ((l.map fun kn => (kn.1, { kn.2 with visited := false })).filter
        fun kn => q kn.2).map (fun kn => print_node_str 0 kn.2) =
      (l.filter fun kn => q kn.2).map
        (fun kn => stripDotSlash kn.2.file ++ (if kn.2.missing then " ?" else "")) := by
  intro l
  induction l with
  | nil => rfl
  | cons kn rest ih =>
    rw [List.map_cons, List.filter_cons, List.filter_cons]
    dsimp only
    rw [hq kn.2]
    cases hqv : q kn.2
    · rw [if_neg Bool.false_ne_true, if_neg Bool.false_ne_true]
      exact ih
    · rw [if_pos rfl, if_pos rfl, List.map_cons, List.map_cons, ih,
        print_node_str_zero _ rfl]

/-- C9 counterexample: after scanning `a.c`, which includes the nonexistent
`b.h`, the top-level listing consists of the single line `b.h ?` — the
missing node appears with the `?` suffix, contradicting the claim that
top-level/leaf lines never carry it. -/
theorem c9_counterexample :
    print_top_level_nodes (cpp_scan_file envC9 4 "a.c" st0).graph = ["b.h ?"] ∧
    missingOf (cpp_scan_file envC9 4 "a.c" st0).graph "b.h" = true :=
  ⟨rfl, rfl⟩

/-- C9 (amended): in the top-level and leaf listing modes every line is
unindented, has a leading `./`-style prefix stripped, and carries no `' *'`
suffix (the visited flags are cleared first); but a node whose `missing` flag
is set IS printed with the `' ?'` suffix. -/
theorem c9_amended_listing (g : Graph) :
    print_top_level_nodes g = (g.nodes.filter fun kn => kn.2.has_parent = false).map
      (fun kn => stripDotSlash kn.2.file ++ (if kn.2.missing then " ?" else "")) ∧
    print_leaf_nodes g = (g.nodes.filter fun kn => hasChildren kn.2 = false).map
      (fun kn => stripDotSlash kn.2.file ++ (if kn.2.missing then " ?" else "")) :=
  ⟨listing_map_aux (fun n => n.has_parent = false) (fun n => rfl) g.nodes,
   listing_map_aux (fun n => hasChildren n = false) (fun n => rfl) g.nodes⟩

theorem graphKeys_updateNode (g : Graph) (key : String) (f : Node → Node) :
    graphKeys (updateNode g key f) = graphKeys g := by
  unfold graphKeys updateNode
  show (g.nodes.map _).map Prod.fst = _
  rw [List.map_map]
  apply List.map_congr_left
  intro kn _
  show (if (kn.1 == key) = true then (kn.1, f kn.2) else kn).1 = kn.1
  split
  · rfl
  · rfl

theorem graphKeys_addChild (g : Graph) (a b : String) :
    graphKeys (addChild g a b) = graphKeys g := by
  unfold addChild
  split
  · rfl
  · split
    · rfl
    · rw [graphKeys_updateNode, graphKeys_updateNode]

theorem findNodeL_eq_none_iff : ∀ (l : List (String × Node)) (k : String),
    findNodeL l k = none ↔ k ∉ l.map Prod.fst := by
  intro l
  induction l with
  | nil => intro k; simp [findNodeL]
  | cons kn rest ih =>
    intro k
    rw [findNodeL]
    by_cases he : (kn.1 == k) = true
    · rw [if_pos he]
      have h1 : kn.1 = k := by simpa using he
      simp [h1]
    · rw [if_neg he]
      have hne : kn.1 ≠ k := by simpa using he
      simp [ih, Ne.symm hne]

theorem nodup_getNode (g : Graph) (f : String) (h : (graphKeys g).Nodup) :
    (graphKeys (getNode g f).1).Nodup := by
  unfold getNode
  cases hf : findNode g f with
  | some n => exact h
  | none =>
    show (graphKeys { nodes := g.nodes ++ [(f, _)] }).Nodup
    unfold graphKeys
    rw [List.map_append, List.nodup_append]
    refine ⟨h, List.nodup_singleton _, ?_⟩
    intro a ha hb
    simp only [List.map_cons, List.map_nil, List.mem_singleton] at hb
    subst hb
    exact (findNodeL_eq_none_iff g.nodes _).mp hf ha

theorem scan_nodup (env : Env) : ∀ (fuel : Nat) (call : ScCall) (st : ScanState),
    (graphKeys st.graph).Nodup →
    (graphKeys (cppScanStep env fuel call st).graph).Nodup := by
  intro fuel
  induction fuel with
  | zero => intro call st h; exact h
  | succ f ih =>
    intro call st h
    cases call with
    | file path =>
      simp only [cppScanStep]
      split
      · exact nodup_getNode st.graph path h
      · split
        · refine ih _ _ ?_
          show (graphKeys (setVisited (getNode st.graph path).1 path)).Nodup
          unfold setVisited
          rw [graphKeys_updateNode]
          exact nodup_getNode st.graph path h
        · show (graphKeys (setMissing (setVisited (getNode st.graph path).1 path) path)).Nodup
          unfold setMissing setVisited
          rw [graphKeys_updateNode, graphKeys_updateNode]
          exact nodup_getNode st.graph path h
    | incs p l =>
      cases l with
      | nil => exact h
      | cons inc rest =>
        simp only [cppScanStep]
        refine ih (ScCall.incs p rest) _ (ih (ScCall.file inc) _ ?_)
        show (graphKeys (addChild (getNode st.graph inc).1 inc p)).Nodup
        rw [graphKeys_addChild]
        exact nodup_getNode st.graph inc h

theorem nodup_find_unique : ∀ (l : List (String × Node)),
    (l.map Prod.fst).Nodup →
    ∀ (k : String) (n : Node), (k, n) ∈ l → findNodeL l k = some n := by
  intro l
  induction l with
  | nil => intro _ k n h; simp at h
  | cons kn rest ih =>
    intro hnd k n hmem
    rw [List.map_cons, List.nodup_cons] at hnd
    rw [findNodeL]
    rcases List.mem_cons.mp hmem with heq | hmem2
    · rw [← heq]
      rw [if_pos (by simp)]
    · by_cases he : (kn.1 == k) = true
      · exfalso
        have h1 : kn.1 = k := by simpa using he
        apply hnd.1
        rw [h1]
        exact List.mem_map_of_mem Prod.fst hmem2
      · rw [if_neg he]
        exact ih hnd.2 k n hmem2

theorem clearVisited_nodes (g : Graph) :
    (clearVisited g).nodes = g.nodes.map fun kn => (kn.1, { kn.2 with visited := false }) :=
  rfl

theorem not_mem_topLevel (g : Graph) (A : String)
    (hnd : (graphKeys g).Nodup) (hhp : hasParentOf g A = true) :
    A ∉ (topLevelEntries (clearVisited g)).map Prod.fst := by
  intro hA
  rw [List.mem_map] at hA
  obtain ⟨kn, hkn, hfst⟩ := hA
  unfold topLevelEntries at hkn
  rw [List.mem_filter] at hkn
  obtain ⟨hmem, hp⟩ := hkn
  rw [clearVisited_nodes, List.mem_map] at hmem
  obtain ⟨kn0, hkn0, hEq⟩ := hmem
  have hk0 : kn0.1 = A := by rw [← hfst, ← hEq]
  have hf : findNode g A = some kn0.2 := by
    apply nodup_find_unique g.nodes hnd
    rw [← hk0]
    simpa using hkn0
  have hhp0 : kn0.2.has_parent = true := by
    unfold hasParentOf at hhp
    rw [hf] at hhp
    simpa using hhp
  rw [← hEq] at hp
  simp only [decide_eq_true_eq] at hp
  rw [show ((kn0.1, { kn0.2 with visited := false }) : String × Node).2.has_parent
      = kn0.2.has_parent from rfl] at hp
  rw [hhp0] at hp
  simp at hp

theorem not_mem_leaf (g : Graph) (A c : String)
    (hnd : (graphKeys g).Nodup) (hc : c ∈ childrenOf g A) :
    A ∉ (leafEntries (clearVisited g)).map Prod.fst := by
  intro hA
  rw [List.mem_map] at hA
  obtain ⟨kn, hkn, hfst⟩ := hA
  unfold leafEntries at hkn
  rw [List.mem_filter] at hkn
  obtain ⟨hmem, hp⟩ := hkn
  rw [clearVisited_nodes, List.mem_map] at hmem
  obtain ⟨kn0, hkn0, hEq⟩ := hmem
  have hk0 : kn0.1 = A := by rw [← hfst, ← hEq]
  have hf : findNode g A = some kn0.2 := by
    apply nodup_find_unique g.nodes hnd
    rw [← hk0]
    simpa using hkn0
  have hcc : c ∈ kn0.2.children := by
    unfold childrenOf at hc
    rw [hf] at hc
    simpa using hc
  rw [← hEq] at hp
  simp only [decide_eq_true_eq] at hp
  rw [show hasChildren ((kn0.1, { kn0.2 with visited := false }) : String × Node).2
      = hasChildren kn0.2 from rfl] at hp
  unfold hasChildren at hp
  simp only [decide_eq_false_iff_not] at hp
  apply hp
  exact List.length_pos_of_mem hcc

/-- C10: a file whose text contains an include directive that resolves to its
own path ends up, after scanning, with a self-edge (its node is in its own
`children` list) and `has_parent = true`; consequently the node is enumerated
neither by the top-level listing (it has a parent) nor by the leaf listing
(it has a child). Hypotheses as in C1, plus uniqueness of the graph's keys
(a Python dict property, true of every reachable graph). -/
theorem c10_self_include (env : Env) (fuel : Nat) (A : String) (st : ScanState)
    (lines : List String)
    (hnd : (graphKeys st.graph).Nodup)
    (hinv : childParentInv st.graph = true)
    (hnv : visitedOf st.graph A = false)
    (hf : fsLookup env.fs A = some lines)
    (hA : A ∈ (scanLines env (splitPath A).1 A 1 lines).1)
    (hfuel : (scanLines env (splitPath A).1 A 1 lines).1.length ≤ fuel) :
    A ∈ childrenOf (cpp_scan_file env (fuel + 1) A st).graph A ∧
    hasParentOf (cpp_scan_file env (fuel + 1) A st).graph A = true ∧
    A ∉ (topLevelEntries (clearVisited (cpp_scan_file env (fuel + 1) A st).graph)).map
      Prod.fst ∧
    A ∉ (leafEntries (clearVisited (cpp_scan_file env (fuel + 1) A st).graph)).map
      Prod.fst := by
  obtain ⟨hmem, hhp⟩ := scan_edge_hasParent env fuel A A st lines hinv hnv hf hA hfuel
  have hndF : (graphKeys (cpp_scan_file env (fuel + 1) A st).graph).Nodup :=
    scan_nodup env (fuel + 1) (ScCall.file A) st hnd
  exact ⟨hmem, hhp, not_mem_topLevel _ A hndF hhp, not_mem_leaf _ A A hndF hmem⟩

/-- Witness for C10: the file `d/a.c` contains `#include "a.c"`, which
resolves (relative to directory `d`) back to `d/a.c` itself. -/
theorem c10_witness :
    "d/a.c" ∈ childrenOf (cpp_scan_file envC10 (1 + 1) "d/a.c" st0).graph "d/a.c" ∧
    hasParentOf (cpp_scan_file envC10 (1 + 1) "d/a.c" st0).graph "d/a.c" = true ∧
    "d/a.c" ∉ (topLevelEntries (clearVisited
      (cpp_scan_file envC10 (1 + 1) "d/a.c" st0).graph)).map Prod.fst ∧
    "d/a.c" ∉ (leafEntries (clearVisited
      (cpp_scan_file envC10 (1 + 1) "d/a.c" st0).graph)).map Prod.fst :=
  c10_self_include envC10 1 "d/a.c" st0 ["#include \"a.c\""]
    (by decide) (by decide) (by decide) (by decide) (by decide) (by decide)

theorem weight_list_le (key : String) : ∀ (l : List (String × Node)),
    ((l.map fun kn => if kn.1 == key then (kn.1, { kn.2 with visited := true }) else kn).map
      entryWeight).sum ≤ (l.map entryWeight).sum := by
  intro l
  induction l with
  | nil => exact Nat.le_refl _
  | cons kn rest ih =>
    rw [List.map_cons, List.map_cons, List.map_cons, List.sum_cons, List.sum_cons]
    have hhead : entryWeight
        (if kn.1 == key then (kn.1, { kn.2 with visited := true }) else kn) ≤
        entryWeight kn := by
      split
      · have h0 : entryWeight (kn.1, { kn.2 with visited := true }) = 0 := rfl
        rw [h0]
        exact Nat.zero_le _
      · exact Nat.le_refl _
    omega

theorem weight_list_setVisited : ∀ (l : List (String × Node)) (key : String) (n : Node),
    findNodeL l key = some n → n.visited = false →
    ((l.map fun kn => if kn.1 == key then (kn.1, { kn.2 with visited := true }) else kn).map
      entryWeight).sum + nodeWeight n ≤ (l.map entryWeight).sum := by
  intro l
  induction l with
  | nil => intro key n h _; simp [findNodeL] at h
  | cons kn rest ih =>
    intro key n h hv
    rw [findNodeL] at h
    rw [List.map_cons, List.map_cons, List.map_cons, List.sum_cons, List.sum_cons]
    by_cases he : (kn.1 == key) = true
    · rw [if_pos he] at h
      have hn : kn.2 = n := by injection h
      have h0 : entryWeight
          (if kn.1 == key then (kn.1, { kn.2 with visited := true }) else kn) = 0 := by
        rw [if_pos he]
        rfl
      have h1 : entryWeight kn = nodeWeight n := by
        unfold entryWeight
        rw [hn, hv]
        rw [if_neg Bool.false_ne_true]
      have h2 := weight_list_le key rest
      omega
    · rw [if_neg he] at h
      have h0 : (if kn.1 == key then (kn.1, { kn.2 with visited := true }) else kn) = kn := by
        rw [if_neg he]
      rw [h0]
      have := ih key n h hv
      omega

theorem gWeight_setVisited_le (g : Graph) (key : String) :
    gWeight (setVisited g key) ≤ gWeight g :=
  weight_list_le key g.nodes

theorem gWeight_setVisited_add (g : Graph) (key : String) (n : Node)
    (hf : findNode g key = some n) (hv : n.visited = false) :
    gWeight (setVisited g key) + nodeWeight n ≤ gWeight g :=
  weight_list_setVisited g.nodes key n hf hv

theorem printTreeStep_gWeight_le : ∀ (fuel : Nat) (call : PTCall) (st : RenderState)
    (r : Option Bool) (st' : RenderState),
    printTreeStep fuel call st = some (r, st') → gWeight st'.graph ≤ gWeight st.graph := by
  intro fuel
  induction fuel with
  | zero => intro call st r st' h; simp [printTreeStep] at h
  | succ f ih =>
    intro call st r st' h
    cases call with
    | node key =>
      simp only [printTreeStep] at h
      split at h
      · injection h with h2
        injection h2 with hr hst
        subst hst
        exact Nat.le_refl _
      · split at h
        · injection h with h2
          injection h2 with hr hst
          subst hst
          exact Nat.le_refl _
        · rename_i n hfn
          split at h
          · injection h with h2
            injection h2 with hr hst
            subst hst
            exact Nat.le_refl _
          · split at h
            · exact Option.noConfusion h
            · rename_i st1 heq
              injection h with h2
              injection h2 with hr hst
              subst hst
              exact Nat.le_trans (ih (PTCall.kids n.children) _ (some true) st1 heq)
                (gWeight_setVisited_le st.graph key)
            · rename_i r1 st1 heq
              injection h with h2
              injection h2 with hr hst
              subst hst
              exact Nat.le_trans (ih _ _ _ _ heq) (gWeight_setVisited_le st.graph key)
    | kids l =>
      cases l with
      | nil =>
        simp only [printTreeStep] at h
        injection h with h2
        injection h2 with hr hst
        subst hst
        exact Nat.le_refl _
      | cons c cs =>
        simp only [printTreeStep] at h
        split at h
        · exact Option.noConfusion h
        · rename_i r0 st1 heq
          split at h
          · exact Nat.le_trans (ih _ _ _ _ h) (ih _ _ _ _ heq)
          · injection h with h2
            injection h2 with hr hst
            subst hst
            exact ih _ _ _ _ heq

theorem printTreeStep_isSome : ∀ (fuel : Nat) (call : PTCall) (st : RenderState),
    ptNeed call st.graph < fuel → (printTreeStep fuel call st).isSome = true := by
  intro fuel
  induction fuel with
  | zero => intro call st h; exact absurd h (Nat.not_lt_zero _)
  | succ f ih =>
    intro call st h
    cases call with
    | node key =>
      simp only [printTreeStep]
      split
      · rfl
      · split
        · rfl
        · rename_i n hfn
          split
          · rfl
          · rename_i hv
            split
            · rename_i heq
              exfalso
              have hv' : n.visited = false := by
                cases hvv : n.visited
                · rfl
                · exact absurd hvv hv
              have hadd := gWeight_setVisited_add st.graph key n hfn hv'
              have hneed : ptNeed (PTCall.kids n.children)
                  (setVisited st.graph key) < f := by
                show gWeight (setVisited st.graph key) + n.children.length < f
                have hh : ptNeed (PTCall.node key) st.graph < f + 1 := h
                have hh2 : gWeight st.graph < f + 1 := hh
                unfold nodeWeight at hadd
                omega
              have hne := ih (PTCall.kids n.children)
                { st with graph := setVisited st.graph key,
                          output := st.output ++ [print_node_str st.depth n],
                          depth := st.depth + 1,
                          max_depth_reached := st.depth + 1 } hneed
              rw [heq] at hne
              simp at hne
            · rfl
            · rfl
    | kids l =>
      cases l with
      | nil => rfl
      | cons c cs =>
        simp only [printTreeStep]
        split
        · rename_i heq
          exfalso
          have hneed : ptNeed (PTCall.node c) st.graph < f := by
            show gWeight st.graph < f
            have hh : gWeight st.graph + (c :: cs).length < f + 1 := h
            simp only [List.length_cons] at hh
            omega
          have hne := ih (PTCall.node c) st hneed
          rw [heq] at hne
          simp at hne
        · rename_i r0 st1 heq
          split
          · refine ih (PTCall.kids cs) st1 ?_
            show gWeight st1.graph + cs.length < f
            have hle := printTreeStep_gWeight_le f (PTCall.node c) st r0 st1 heq
            have hh : gWeight st.graph + (c :: cs).length < f + 1 := h
            simp only [List.length_cons] at hh
            omega
          · rfl

/-- C6: (1) termination — `print_tree` cannot recurse deeper than the total
weight of the graph's unvisited part (one unit per unvisited node plus one
per edge out of it), so on every finite graph, cyclic or not, a fuel budget
above `gWeight` never runs out and the render terminates; (2) the depth
ceiling — a call entered with `depth > MAX_DEPTH` (`MAX_DEPTH = 1000`)
prints the `MAX depth reached` diagnostic and aborts with `False`;
(3) on the concrete cycle where `A` includes `B` and `B` includes `A`,
rendering `A`'s tree prints `A`, then `B`, then meets `A` again, prints it
with its already-visited marker, and stops — no unbounded recursion into the
cycle. -/
theorem c6_print_tree_terminates (fuel fuel2 : Nat) (key key2 : String)
    (st st2 : RenderState)
    (h1 : gWeight st.graph < fuel)
    (h2 : MAX_DEPTH < st2.depth) :
    (printTree fuel key st).isSome = true ∧
    printTree (fuel2 + 1) key2 st2 = some (some false,
      { st2 with output := st2.output ++ ["MAX depth reached " ++ toString st2.depth] }) ∧
    (printTree 8 "A" rsAB).map (fun r => (r.1, r.2.output)) =
      some (some false, ["A", "  B", "    A *"]) := by
  refine ⟨printTreeStep_isSome fuel (PTCall.node key) st h1, ?_, rfl⟩
  unfold printTree
  simp only [printTreeStep]
  rw [if_pos h2]

/-- Witness for C6: fuel 5 exceeds the weight 4 of the two-node cycle graph,
so the render from `A` completes; a render entered at depth 1001 aborts with
the diagnostic. -/
theorem c6_witness :
    (printTree 5 "A" rsAB).isSome = true ∧
    printTree (0 + 1) "A" rsDeep = some (some false,
      { rsDeep with output := rsDeep.output ++
          ["MAX depth reached " ++ toString rsDeep.depth] }) ∧
    (printTree 8 "A" rsAB).map (fun r => (r.1, r.2.output)) =
      some (some false, ["A", "  B", "    A *"]) :=
  c6_print_tree_terminates 5 0 "A" "A" rsAB rsDeep (by decide) (by decide)

end Depends
